import Mathlib

/-!
Shallow embedding of the CartPole DQN training script (`main.py`):
the `Agent` (policy / train / update / update_epsilon) and the
`ReplayBuffer` (store_experience / fill_buffer / sample_buffer / update).
Neural-network layer arithmetic, the gym environment and the process-wide
random number generators are external collaborators; they are modelled as
explicit oracles (streams indexed by a call counter), and floating-point
numbers are modelled as exact rationals.
-/

/-- One stored experience tuple `(state, action, reward, next_state, done)`,
exactly what `store_experience` appends to the buffer. -/
structure Transition (σ : Type) where
  state : σ
  action : ℕ
  reward : ℚ
  next_state : σ
  done : Bool

/-- The `ReplayBuffer` object.  The constructor sets `buffer = []`,
`buffer_size`, and `end_factor = 0`.  The attribute `replay_buffer` does not
exist until `update` assigns it, hence it is an `Option` that starts `none`. -/
structure ReplayBuffer (σ : Type) where
  buffer : List (Transition σ)
  buffer_size : ℕ
  end_factor : ℚ
  replay_buffer : Option (List (Transition σ))

variable {σ : Type}

/-- `ReplayBuffer.__init__(buffer_size)`. -/
def ReplayBuffer.init (σ : Type) (buffer_size : ℕ) : ReplayBuffer σ :=
  ⟨[], buffer_size, 0, none⟩

/-- `ReplayBuffer.update`: `self.replay_buffer = []` (a fresh attribute, not
`self.buffer`) followed by `self.end_factor *= 0.9`. -/
def ReplayBuffer.update (rb : ReplayBuffer σ) : ReplayBuffer σ :=
  { rb with replay_buffer := some [], end_factor := rb.end_factor * (9/10) }

/-- Oracle for the gym environment: the state handed back by the `r`-th call
to `reset`, and the `(next_state, reward, terminated, truncated)` results of
the `k`-th call to `step`. -/
structure EnvOracle (σ : Type) where
  resetState : ℕ → σ
  stepNext : ℕ → σ
  stepReward : ℕ → ℚ
  stepTerminated : ℕ → Bool
  stepTruncated : ℕ → Bool

/-- `ReplayBuffer.store_experience(env, agent, state)`: the agent's
(exploratory) policy and the environment step are external calls, modelled by
the streams `act` and `env` at call counter `k`.  Appends the transition and
returns the updated buffer object together with `(next_state, done)`. -/
def ReplayBuffer.store_experience (rb : ReplayBuffer σ) (env : EnvOracle σ)
    (act : ℕ → ℕ) (k : ℕ) (state : σ) : ReplayBuffer σ × σ × Bool :=
  let action := act k
  let next_state := env.stepNext k
  let reward := env.stepReward k
  let done := env.stepTerminated k || env.stepTruncated k
  ({ rb with buffer := rb.buffer ++ [⟨state, action, reward, next_state, done⟩] },
   next_state, done)

/-- The inner `while not done:` loop of `fill_buffer`: call
`store_experience`, then `break` when `done or np.random.random() <
self.end_factor or len(self.buffer) >= self.buffer_size`.  `rs k` is the
`k`-th draw of `np.random.random()`.  `fuel` bounds the number of
iterations; the lemmas below show `buffer_size` fuel always suffices.
Returns the buffer object and the next call counter. -/
def fillInner (env : EnvOracle σ) (act : ℕ → ℕ) (rs : ℕ → ℚ) :
    ℕ → ReplayBuffer σ → ℕ → σ → ReplayBuffer σ × ℕ
  | 0, rb, k, _ => (rb, k)
  | fuel + 1, rb, k, state =>
    let res := rb.store_experience env act k state
    if res.2.2 = true ∨ rs k < res.1.end_factor
        ∨ res.1.buffer_size ≤ res.1.buffer.length
    then (res.1, k + 1)
    else fillInner env act rs fuel res.1 (k + 1) res.2.1

/-- The outer `while len(self.buffer) < self.buffer_size:` loop of
`fill_buffer`: reset the environment (the `r`-th reset) and run one episode
of the inner loop.  Returns `(buffer object, step counter, reset counter)`. -/
def fillOuter (env : EnvOracle σ) (act : ℕ → ℕ) (rs : ℕ → ℚ) :
    ℕ → ReplayBuffer σ → ℕ → ℕ → ReplayBuffer σ × ℕ × ℕ
  | 0, rb, k, r => (rb, k, r)
  | fuel + 1, rb, k, r =>
    if rb.buffer.length < rb.buffer_size then
      let res := fillInner env act rs rb.buffer_size rb k (env.resetState r)
      fillOuter env act rs fuel res.1 res.2 (r + 1)
    else (rb, k, r)

/-- `ReplayBuffer.fill_buffer(env, agent)`, with all external calls counted
from `0`.  The second and third components report how many environment
steps / policy calls and how many environment resets were performed. -/
def ReplayBuffer.fill_buffer (rb : ReplayBuffer σ) (env : EnvOracle σ)
    (act : ℕ → ℕ) (rs : ℕ → ℚ) : ReplayBuffer σ × ℕ × ℕ :=
  fillOuter env act rs (rb.buffer_size + 1) rb 0 0

/-- Variant of `fillInner` with the stochastic early-truncation test
(`np.random.random() < self.end_factor`) deleted: an episode ends only on
natural termination or on reaching buffer capacity. -/
def fillInnerNR (env : EnvOracle σ) (act : ℕ → ℕ) :
    ℕ → ReplayBuffer σ → ℕ → σ → ReplayBuffer σ × ℕ
  | 0, rb, k, _ => (rb, k)
  | fuel + 1, rb, k, state =>
    let res := rb.store_experience env act k state
    if res.2.2 = true ∨ res.1.buffer_size ≤ res.1.buffer.length
    then (res.1, k + 1)
    else fillInnerNR env act fuel res.1 (k + 1) res.2.1

/-- Outer loop driving `fillInnerNR`. -/
def fillOuterNR (env : EnvOracle σ) (act : ℕ → ℕ) :
    ℕ → ReplayBuffer σ → ℕ → ℕ → ReplayBuffer σ × ℕ × ℕ
  | 0, rb, k, r => (rb, k, r)
  | fuel + 1, rb, k, r =>
    if rb.buffer.length < rb.buffer_size then
      let res := fillInnerNR env act rb.buffer_size rb k (env.resetState r)
      fillOuterNR env act fuel res.1 res.2 (r + 1)
    else (rb, k, r)

/-- `fill_buffer` with the stochastic early-truncation branch deleted. -/
def ReplayBuffer.fill_bufferNR (rb : ReplayBuffer σ) (env : EnvOracle σ)
    (act : ℕ → ℕ) : ReplayBuffer σ × ℕ × ℕ :=
  fillOuterNR env act (rb.buffer_size + 1) rb 0 0

/-- Model of `random.sample(population, k)` restricted to the chosen
positions: repeatedly pick one of the still-available positions (the `c`-th
draw of the generator, reduced mod the remaining count) and remove it, so a
position can be chosen at most once. -/
def sampleGo (rs : ℕ → ℕ) : ℕ → List ℕ → ℕ → List ℕ
  | _, _, 0 => []
  | c, avail, k + 1 =>
    if h : avail.length = 0 then []
    else
      let j := rs c % avail.length
      avail.get ⟨j, Nat.mod_lt _ (Nat.pos_of_ne_zero h)⟩ ::
        sampleGo rs (c + 1) (avail.eraseIdx j) k

/-- `random.sample` on a population of `n` elements: raises `ValueError`
(`none`) when `k > n`, otherwise returns the `k` chosen positions. -/
def randomSample (rs : ℕ → ℕ) (c n k : ℕ) : Option (List ℕ) :=
  if k ≤ n then some (sampleGo rs c (List.range n) k) else none

/-- Python `range(start, stop, step)` for positive `step`. -/
def pyRange (start stop step : ℕ) : List ℕ :=
  List.range' start ((stop - start + step - 1) / step) step

/-- `ReplayBuffer.sample_buffer(batch_size)`: for each `batch_num` in
`range(0, self.buffer_size, batch_size)`, yield
`random.sample(self.buffer, batch_size)` (as chosen positions into
`self.buffer`, each batch drawn with fresh randomness). -/
def ReplayBuffer.sample_buffer (rb : ReplayBuffer σ) (batch_size : ℕ)
    (rs : ℕ → ℕ) : List (Option (List ℕ)) :=
  (pyRange 0 rb.buffer_size batch_size).map
    (fun batch_num => randomSample rs batch_num rb.buffer.length batch_size)

/-- The `Agent`: the two networks are carried as their weight lists (ordered
sequences of numeric arrays, per `get_weights` / `set_weights`), plus
`epsilon` and `gamma`. -/
structure Agent where
  q_net : List (List ℚ)
  t_net : List (List ℚ)
  epsilon : ℚ
  gamma : ℚ

/-- `Agent.update`: `self.t_net.set_weights(self.q_net.get_weights())`. -/
def Agent.update (a : Agent) : Agent :=
  { a with t_net := a.q_net }

/-- `Agent.__init__`: fresh weights for both nets, then `self.update()`,
`self.epsilon = 1`, `self.gamma = 0.9`. -/
def Agent.init (qw tw : List (List ℚ)) : Agent :=
  Agent.update ⟨qw, tw, 1, 9/10⟩

/-- `Agent.update_epsilon`:
`if self.epsilon > 0.05: self.epsilon = np.max([self.epsilon * 0.9, 0.05])`. -/
def Agent.update_epsilon (a : Agent) : Agent :=
  if 1/20 < a.epsilon then { a with epsilon := max (a.epsilon * (9/10)) (1/20) }
  else a

/-- Contract of `np.argmax` on a 1-d array: index of the first occurrence of
the maximum (`0` on an empty array, which numpy rejects anyway). -/
def npArgmax : List ℚ → ℕ
  | [] => 0
  | x :: xs => if xs.all (fun y => decide (y ≤ x)) then 0 else npArgmax xs + 1

/-- `Agent.policy(state, train)`: run the online net (`forward` is the
external layer arithmetic applied to `q_net`'s weights), then
`if np.random.random() < self.epsilon and train:` return a random action
(`randAct`, the draw of `np.random.randint(0, 2)`) else the argmax. -/
def Agent.policy (a : Agent) (forward : List (List ℚ) → σ → List ℚ)
    (state : σ) (train : Bool) (rand : ℚ) (randAct : ℕ) : ℕ :=
  let q_est := forward a.q_net state
  if decide (rand < a.epsilon) && train then randAct else npArgmax q_est

/-- The row rewrite of `Agent.train`'s target loop on one sample:
`truth[i, action] = reward` when `done`, else
`truth[i, action] = reward + gamma * truth[i, action]`. -/
def rowTarget (gamma : ℚ) (row : List ℚ) (tr : Transition σ) : List ℚ :=
  row.set tr.action
    (if tr.done then tr.reward else tr.reward + gamma * row.getD tr.action 0)

/-- The target tensor built by `Agent.train(batch)` before `fit`:
`truth = self.t_net(next_states).numpy()`, then for `i, (_, action, reward,
_, done) in enumerate(batch)` overwrite `truth[i, action]` as in the code.
`tForward` is the external layer arithmetic of the target net. -/
def Agent.train_truth (a : Agent) (tForward : List (List ℚ) → σ → List ℚ)
    (batch : List (Transition σ)) : List (List ℚ) :=
  let truth := batch.map (fun tr => tForward a.t_net tr.next_state)
  (batch.enum).foldl (fun m p =>
    m.set p.1 ((m.getD p.1 []).set p.2.action
      (if p.2.done then p.2.reward
       else p.2.reward + a.gamma * (m.getD p.1 []).getD p.2.action 0))) truth

/-! ### Helper lemmas about `npArgmax` -/

theorem npArgmax_lt_length (l : List ℚ) (h : l ≠ []) : npArgmax l < l.length := by
  induction l with
  | nil => exact absurd rfl h
  | cons x xs ih =>
    by_cases hall : xs.all (fun y => decide (y ≤ x)) = true
    · simp [npArgmax, hall]
    · have hxs : xs ≠ [] := by
        intro he
        subst he
        simp at hall
      have := ih hxs
      have hstep : npArgmax (x :: xs) = npArgmax xs + 1 := by
        simp [npArgmax, hall]
      rw [hstep]
      simp only [List.length_cons]
      omega

theorem npArgmax_is_max (l : List ℚ) :
    ∀ k, k < l.length → l.getD k 0 ≤ l.getD (npArgmax l) 0 := by
  induction l with
  | nil =>
    intro k hk
    simp at hk
  | cons x xs ih =>
    intro k hk
    by_cases hall : xs.all (fun y => decide (y ≤ x)) = true
    · have hmax : ∀ y ∈ xs, y ≤ x := by
        intro y hy
        exact of_decide_eq_true (List.all_eq_true.mp hall y hy)
      cases k with
      | zero => simp [npArgmax, hall]
      | succ k =>
        have hk' : k < xs.length := by simpa using hk
        have hmem : xs.getD k 0 ∈ xs := by
          rw [List.getD_eq_getElem xs 0 hk']
          exact List.getElem_mem hk'
        simpa [npArgmax, hall] using hmax _ hmem
    · have hex : ∃ y ∈ xs, x < y := by
        by_contra hc
        push_neg at hc
        exact hall (List.all_eq_true.mpr fun y hy => decide_eq_true (hc y hy))
      obtain ⟨y, hy, hxy⟩ := hex
      obtain ⟨m, hm, hym⟩ := List.mem_iff_getElem.mp hy
      have h1 : xs.getD m 0 ≤ xs.getD (npArgmax xs) 0 := ih m hm
      have h2 : x ≤ xs.getD (npArgmax xs) 0 := by
        refine le_trans (le_of_lt hxy) ?_
        rw [← hym, ← List.getD_eq_getElem xs 0 hm]
        exact h1
      cases k with
      | zero => simpa [npArgmax, hall] using h2
      | succ k =>
        have hk' : k < xs.length := by simpa using hk
        simpa [npArgmax, hall] using ih k hk'

theorem npArgmax_first_max (l : List ℚ) :
    ∀ k, k < npArgmax l → l.getD k 0 < l.getD (npArgmax l) 0 := by
  induction l with
  | nil =>
    intro k hk
    simp [npArgmax] at hk
  | cons x xs ih =>
    intro k hk
    by_cases hall : xs.all (fun y => decide (y ≤ x)) = true
    · simp [npArgmax, hall] at hk
    · have hex : ∃ y ∈ xs, x < y := by
        by_contra hc
        push_neg at hc
        exact hall (List.all_eq_true.mpr fun y hy => decide_eq_true (hc y hy))
      obtain ⟨y, hy, hxy⟩ := hex
      obtain ⟨m, hm, hym⟩ := List.mem_iff_getElem.mp hy
      have hxlt : x < xs.getD (npArgmax xs) 0 := by
        refine lt_of_lt_of_le hxy ?_
        rw [← hym, ← List.getD_eq_getElem xs 0 hm]
        exact npArgmax_is_max xs m hm
      have hstep : npArgmax (x :: xs) = npArgmax xs + 1 := by
        simp [npArgmax, hall]
      rw [hstep] at hk
      cases k with
      | zero => simpa [npArgmax, hall] using hxlt
      | succ k =>
        have hk' : k < npArgmax xs := by omega
        simpa [npArgmax, hall] using ih k hk'

/-! ### Helper lemmas about `Agent.update_epsilon` -/

theorem update_epsilon_eps (a : Agent) :
    (a.update_epsilon).epsilon =
      if 1/20 < a.epsilon then max (a.epsilon * (9/10)) (1/20) else a.epsilon := by
  unfold Agent.update_epsilon
  split <;> rfl

theorem update_epsilon_le (a : Agent) (h : 0 ≤ a.epsilon) :
    (a.update_epsilon).epsilon ≤ a.epsilon := by
  unfold Agent.update_epsilon
  split
  · rename_i hgt
    simp only
    refine max_le ?_ (le_of_lt hgt)
    nlinarith
  · exact le_refl _

theorem update_epsilon_lb (a : Agent) (h : 1/20 ≤ a.epsilon) :
    1/20 ≤ (a.update_epsilon).epsilon := by
  unfold Agent.update_epsilon
  split
  · exact le_max_right _ _
  · exact h

theorem update_epsilon_noop (a : Agent) (h : a.epsilon ≤ 1/20) :
    a.update_epsilon = a := by
  unfold Agent.update_epsilon
  rw [if_neg (by exact not_lt.mpr h)]

theorem iterate_update_epsilon_lb (a : Agent) (h : 1/20 ≤ a.epsilon) :
    ∀ n, 1/20 ≤ (Agent.update_epsilon^[n] a).epsilon := by
  intro n
  induction n with
  | zero => simpa using h
  | succ n ih =>
    rw [Function.iterate_succ_apply']
    exact update_epsilon_lb _ ih

theorem iterate_update_epsilon_pow (a : Agent) (h1 : a.epsilon = 1) :
    ∀ n, n ≤ 28 → (Agent.update_epsilon^[n] a).epsilon = (9/10 : ℚ)^n := by
  intro n
  induction n with
  | zero =>
    intro _
    simpa using h1
  | succ n ih =>
    intro hn
    have hpow : (1/20 : ℚ) < (9/10 : ℚ)^n := by
      have h28 : ((9:ℚ)/10)^28 ≤ (9/10 : ℚ)^n :=
        pow_le_pow_of_le_one (by norm_num) (by norm_num) (by omega)
      have : (1/20 : ℚ) < (9/10 : ℚ)^28 := by norm_num
      linarith
    have hpow' : (1/20 : ℚ) ≤ (9/10 : ℚ)^(n+1) := by
      have h28 : ((9:ℚ)/10)^28 ≤ (9/10 : ℚ)^(n+1) :=
        pow_le_pow_of_le_one (by norm_num) (by norm_num) (by omega)
      have : (1/20 : ℚ) < (9/10 : ℚ)^28 := by norm_num
      linarith
    have he := ih (by omega)
    rw [Function.iterate_succ_apply', update_epsilon_eps, he, if_pos hpow,
      ← pow_succ]
    exact max_eq_left hpow'

theorem iterate_update_epsilon_floor (a : Agent) (h1 : a.epsilon = 1) :
    (Agent.update_epsilon^[29] a).epsilon = 1/20 := by
  have h28 := iterate_update_epsilon_pow a h1 28 (le_refl 28)
  have h29 : (29 : ℕ) = 1 + 28 := by norm_num
  rw [h29, Function.iterate_add_apply, Function.iterate_one, update_epsilon_eps,
    h28, if_pos (show (1/20 : ℚ) < (9/10 : ℚ)^28 by norm_num), ← pow_succ]
  refine max_eq_right ?_
  norm_num

theorem iterate_update_epsilon_stable (b : Agent) (h : b.epsilon = 1/20) :
    ∀ m, (Agent.update_epsilon^[m] b).epsilon = 1/20 := by
  intro m
  induction m with
  | zero => simpa using h
  | succ m ih =>
    rw [Function.iterate_succ_apply']
    rw [update_epsilon_noop _ (le_of_eq ih)]
    exact ih

/-! ### Claim C1 -/

/-- Concrete transition used as failing input for C1. -/
def trC1 : Transition ℚ := ⟨0, 0, 1, 0, true⟩

/-- A `ReplayBuffer` holding one transition (as after some filling). -/
def rbC1 : ReplayBuffer ℚ := ⟨[trC1], 1280, 0, none⟩

/-- C1 (code bug witnessed): `ReplayBuffer.update()` does NOT reset the
buffer of stored transitions — the container `buffer` that `fill_buffer`
appends to and `sample_buffer` draws from is left unchanged (and nonempty);
the code assigns `[]` to the separate, otherwise unused attribute
`replay_buffer`.  The `end_factor *= 0.9` decay and the unchanged
`buffer_size` parts of the claim do hold. -/
theorem claim_C1_update_leaves_buffer_nonempty :
    (rbC1.update).buffer = [trC1]
    ∧ (rbC1.update).buffer ≠ []
    ∧ (rbC1.update).end_factor = rbC1.end_factor * (9/10)
    ∧ (rbC1.update).buffer_size = rbC1.buffer_size
    ∧ (rbC1.update).replay_buffer = some [] := by
  refine ⟨rfl, ?_, rfl, rfl, rfl⟩
  simp [ReplayBuffer.update, rbC1]

/-! ### Claim C3 -/

/-- C3: starting from `epsilon = 1`, one call of `update_epsilon` gives
`0.9`; iterated calls are monotonically non-increasing, never drop below
`0.05`, reach exactly `0.05` (after 29 calls, and stay there); and any agent
whose epsilon is at or below `0.05` is left completely unchanged by a
further call. -/
theorem claim_C3_epsilon_schedule (a : Agent) (h1 : a.epsilon = 1) :
    (a.update_epsilon).epsilon = 9/10
    ∧ (∀ n, (Agent.update_epsilon^[n + 1] a).epsilon ≤
        (Agent.update_epsilon^[n] a).epsilon)
    ∧ (∀ n, 1/20 ≤ (Agent.update_epsilon^[n] a).epsilon)
    ∧ (Agent.update_epsilon^[29] a).epsilon = 1/20
    ∧ (∀ n, 29 ≤ n → (Agent.update_epsilon^[n] a).epsilon = 1/20)
    ∧ (∀ b : Agent, b.epsilon ≤ 1/20 → b.update_epsilon = b) := by
  have hlb : ∀ n, 1/20 ≤ (Agent.update_epsilon^[n] a).epsilon :=
    iterate_update_epsilon_lb a (by rw [h1]; norm_num)
  refine ⟨?_, ?_, hlb, iterate_update_epsilon_floor a h1, ?_, ?_⟩
  · rw [update_epsilon_eps, h1, if_pos (by norm_num)]
    norm_num
  · intro n
    rw [Function.iterate_succ_apply']
    exact update_epsilon_le _ (le_trans (by norm_num) (hlb n))
  · intro n hn
    have hsplit : n = (n - 29) + 29 := by omega
    rw [hsplit, Function.iterate_add_apply]
    exact iterate_update_epsilon_stable _ (iterate_update_epsilon_floor a h1)
      (n - 29)
  · intro b hb
    exact update_epsilon_noop b hb

/-- Witness for C3 at the concrete freshly constructed agent. -/
theorem claim_C3_witness :
    (Agent.update_epsilon (Agent.init [] [])).epsilon = 9/10 :=
  (claim_C3_epsilon_schedule (Agent.init [] []) rfl).1

/-! ### Claim C6 -/

/-- C6: after `Agent.update()`, every weight array of the target net is
element-wise identical to the corresponding array of the online net (a full
hard copy), and the online net's weights, epsilon and gamma are unchanged. -/
theorem claim_C6_update_hard_copies_weights (a : Agent) :
    (a.update).t_net = (a.update).q_net
    ∧ (a.update).q_net = a.q_net
    ∧ (∀ i j, ((a.update).t_net.getD i []).getD j 0 =
        ((a.update).q_net.getD i []).getD j 0)
    ∧ (a.update).epsilon = a.epsilon
    ∧ (a.update).gamma = a.gamma :=
  ⟨rfl, rfl, fun _ _ => rfl, rfl, rfl⟩

/-! ### Claim C7 -/

/-- C7: `Agent.policy(state, train=false)` ignores the exploration draws
entirely: whatever random number and random action the process RNG would
produce, the result is the first-index argmax of the online net's value
estimates for that state (so two calls with identical weights agree).  The
last two conjuncts spell out "first-index argmax": the chosen index is
maximal, and every earlier index holds a strictly smaller estimate. -/
theorem claim_C7_policy_greedy_deterministic
    (forward : List (List ℚ) → σ → List ℚ) (a : Agent) (state : σ)
    (rand rand' : ℚ) (ra ra' : ℕ)
    (hne : forward a.q_net state ≠ []) :
    a.policy forward state false rand ra = a.policy forward state false rand' ra'
    ∧ a.policy forward state false rand ra = npArgmax (forward a.q_net state)
    ∧ npArgmax (forward a.q_net state) < (forward a.q_net state).length
    ∧ (∀ k, k < (forward a.q_net state).length →
        (forward a.q_net state).getD k 0 ≤
          (forward a.q_net state).getD (npArgmax (forward a.q_net state)) 0)
    ∧ (∀ k, k < npArgmax (forward a.q_net state) →
        (forward a.q_net state).getD k 0 <
          (forward a.q_net state).getD (npArgmax (forward a.q_net state)) 0) := by
  refine ⟨?_, ?_, npArgmax_lt_length _ hne, npArgmax_is_max _, npArgmax_first_max _⟩
  · simp [Agent.policy]
  · simp [Agent.policy]

/-- Witness for C7: a concrete forward map and agent; the greedy action is
the first-index argmax (index 0 of `[3, 3]`, a tie broken to the left). -/
theorem claim_C7_witness :
    Agent.policy ⟨[[3]], [[3]], 1, 9/10⟩ (fun w _ => [w.getD 0 [] |>.getD 0 0, 3])
        (0 : ℚ) false (1/2) 1
      = Agent.policy ⟨[[3]], [[3]], 1, 9/10⟩ (fun w _ => [w.getD 0 [] |>.getD 0 0, 3])
        (0 : ℚ) false (1/4) 0 :=
  (claim_C7_policy_greedy_deterministic
    (fun w _ => [w.getD 0 [] |>.getD 0 0, 3]) ⟨[[3]], [[3]], 1, 9/10⟩ (0 : ℚ)
    (1/2) (1/4) 1 0 (by simp)).1

/-! ### Helper lemmas about `fill_buffer` -/

theorem fillInner_frame (env : EnvOracle σ) (act : ℕ → ℕ) (rs : ℕ → ℚ) :
    ∀ (fuel : ℕ) (rb : ReplayBuffer σ) (k : ℕ) (st : σ),
      (fillInner env act rs fuel rb k st).1.buffer_size = rb.buffer_size
      ∧ (fillInner env act rs fuel rb k st).1.end_factor = rb.end_factor
      ∧ (fillInner env act rs fuel rb k st).1.replay_buffer = rb.replay_buffer
      ∧ ∃ suf, (fillInner env act rs fuel rb k st).1.buffer = rb.buffer ++ suf := by
  intro fuel
  induction fuel with
  | zero =>
    intro rb k st
    exact ⟨rfl, rfl, rfl, [], (List.append_nil _).symm⟩
  | succ fuel ih =>
    intro rb k st
    simp only [fillInner, ReplayBuffer.store_experience]
    split
    · exact ⟨rfl, rfl, rfl, _, rfl⟩
    · obtain ⟨h1, h2, h3, suf, h4⟩ := ih _ (k + 1) _
      refine ⟨h1, h2, h3,
        [⟨st, act k, env.stepReward k, env.stepNext k,
          env.stepTerminated k || env.stepTruncated k⟩] ++ suf, ?_⟩
      rw [h4, List.append_assoc]

theorem fillInner_len_ge (env : EnvOracle σ) (act : ℕ → ℕ) (rs : ℕ → ℚ)
    (fuel : ℕ) (rb : ReplayBuffer σ) (k : ℕ) (st : σ) :
    rb.buffer.length ≤ (fillInner env act rs fuel rb k st).1.buffer.length := by
  obtain ⟨-, -, -, suf, h⟩ := fillInner_frame env act rs fuel rb k st
  rw [h]
  simp

theorem fillInner_le (env : EnvOracle σ) (act : ℕ → ℕ) (rs : ℕ → ℚ) :
    ∀ (fuel : ℕ) (rb : ReplayBuffer σ) (k : ℕ) (st : σ),
      rb.buffer.length < rb.buffer_size →
      (fillInner env act rs fuel rb k st).1.buffer.length ≤ rb.buffer_size := by
  intro fuel
  induction fuel with
  | zero =>
    intro rb k st h
    exact le_of_lt h
  | succ fuel ih =>
    intro rb k st h
    simp only [fillInner, ReplayBuffer.store_experience]
    split
    · simpa using h
    · rename_i hcond
      push_neg at hcond
      exact ih _ (k + 1) _ hcond.2.2

theorem fillInner_gt (env : EnvOracle σ) (act : ℕ → ℕ) (rs : ℕ → ℚ)
    (fuel : ℕ) (rb : ReplayBuffer σ) (k : ℕ) (st : σ) (hfuel : 1 ≤ fuel) :
    rb.buffer.length < (fillInner env act rs fuel rb k st).1.buffer.length := by
  cases fuel with
  | zero => omega
  | succ fuel =>
    simp only [fillInner, ReplayBuffer.store_experience]
    split
    · simp
    · refine lt_of_lt_of_le ?_ (fillInner_len_ge env act rs fuel _ (k + 1) _)
      simp

theorem fillOuter_spec (env : EnvOracle σ) (act : ℕ → ℕ) (rs : ℕ → ℚ) :
    ∀ (fuel : ℕ) (rb : ReplayBuffer σ) (k r : ℕ),
      rb.buffer.length ≤ rb.buffer_size →
      rb.buffer_size - rb.buffer.length < fuel →
      (fillOuter env act rs fuel rb k r).1.buffer.length = rb.buffer_size
      ∧ (fillOuter env act rs fuel rb k r).1.buffer_size = rb.buffer_size
      ∧ (fillOuter env act rs fuel rb k r).1.end_factor = rb.end_factor
      ∧ (fillOuter env act rs fuel rb k r).1.replay_buffer = rb.replay_buffer
      ∧ ∃ suf, (fillOuter env act rs fuel rb k r).1.buffer = rb.buffer ++ suf := by
  intro fuel
  induction fuel with
  | zero =>
    intro rb k r hle hfuel
    omega
  | succ fuel ih =>
    intro rb k r hle hfuel
    simp only [fillOuter]
    split
    · rename_i hlt
      obtain ⟨hbs, hef, hrp, suf1, hbuf⟩ :=
        fillInner_frame env act rs rb.buffer_size rb k (env.resetState r)
      have hgt := fillInner_gt env act rs rb.buffer_size rb k (env.resetState r)
        (by omega)
      have hle2 := fillInner_le env act rs rb.buffer_size rb k (env.resetState r)
        hlt
      obtain ⟨o1, o2, o3, o4, suf2, o5⟩ := ih _ _ (r + 1)
        (by rw [hbs]; exact hle2) (by rw [hbs]; omega)
      refine ⟨?_, ?_, ?_, ?_, suf1 ++ suf2, ?_⟩
      · rw [o1, hbs]
      · rw [o2, hbs]
      · rw [o3, hef]
      · rw [o4, hrp]
      · rw [o5, hbuf, List.append_assoc]
    · rename_i hnlt
      refine ⟨?_, rfl, rfl, rfl, [], (List.append_nil _).symm⟩
      show rb.buffer.length = rb.buffer_size
      omega

theorem fillInner_eq_NR (env : EnvOracle σ) (act : ℕ → ℕ) (rs : ℕ → ℚ)
    (hrs : ∀ j, 0 ≤ rs j) :
    ∀ (fuel : ℕ) (rb : ReplayBuffer σ) (k : ℕ) (st : σ), rb.end_factor = 0 →
      fillInner env act rs fuel rb k st = fillInnerNR env act fuel rb k st := by
  intro fuel
  induction fuel with
  | zero =>
    intro rb k st _
    rfl
  | succ fuel ih =>
    intro rb k st hef
    simp only [fillInner, fillInnerNR, ReplayBuffer.store_experience, hef,
      not_lt.mpr (hrs k), false_or]
    split
    · rfl
    · exact ih _ (k + 1) _ rfl

theorem fillOuter_eq_NR (env : EnvOracle σ) (act : ℕ → ℕ) (rs : ℕ → ℚ)
    (hrs : ∀ j, 0 ≤ rs j) :
    ∀ (fuel : ℕ) (rb : ReplayBuffer σ) (k r : ℕ), rb.end_factor = 0 →
      fillOuter env act rs fuel rb k r = fillOuterNR env act fuel rb k r := by
  intro fuel
  induction fuel with
  | zero =>
    intro rb k r _
    rfl
  | succ fuel ih =>
    intro rb k r hef
    simp only [fillOuter, fillOuterNR]
    by_cases h : rb.buffer.length < rb.buffer_size
    · rw [if_pos h, if_pos h,
        ← fillInner_eq_NR env act rs hrs rb.buffer_size rb k (env.resetState r) hef]
      exact ih _ _ (r + 1)
        ((fillInner_frame env act rs rb.buffer_size rb k (env.resetState r)).2.1.trans
          hef)
    · rw [if_neg h, if_neg h]

/-! ### Concrete oracles used by the witnesses -/

/-- A deterministic stub environment: every step terminates the episode with
reward `1`. -/
def envW : EnvOracle ℚ :=
  ⟨fun _ => 0, fun _ => 0, fun _ => 1, fun _ => true, fun _ => false⟩

/-- A stub policy stream. -/
def actW : ℕ → ℕ := fun _ => 0

/-- A stub `np.random.random()` stream. -/
def rsW : ℕ → ℚ := fun _ => 1/2

/-! ### Claim C4 -/

/-- C4: from any buffer state within capacity, `fill_buffer` terminates with
the buffer length exactly `buffer_size` (never more), only ever appending to
the existing contents; moreover the appending loop itself (`fillInner`, the
only place transitions are added, with a capacity check directly after every
append) can never push the length beyond `buffer_size`, whatever its fuel —
so no intermediate state exceeds capacity either. -/
theorem claim_C4_fill_buffer_reaches_capacity_exactly (env : EnvOracle σ)
    (act : ℕ → ℕ) (rs : ℕ → ℚ) (rb : ReplayBuffer σ)
    (h : rb.buffer.length ≤ rb.buffer_size) :
    (rb.fill_buffer env act rs).1.buffer.length = rb.buffer_size
    ∧ (rb.fill_buffer env act rs).1.buffer_size = rb.buffer_size
    ∧ (∃ suf, (rb.fill_buffer env act rs).1.buffer = rb.buffer ++ suf)
    ∧ (∀ (rb' : ReplayBuffer σ) (fuel k : ℕ) (st : σ),
        rb'.buffer.length < rb'.buffer_size →
        (fillInner env act rs fuel rb' k st).1.buffer.length ≤ rb'.buffer_size) := by
  obtain ⟨o1, o2, o3, o4, suf, o5⟩ :=
    fillOuter_spec env act rs (rb.buffer_size + 1) rb 0 0 h (by omega)
  exact ⟨o1, o2, ⟨suf, o5⟩,
    fun rb' fuel k st hlt => fillInner_le env act rs fuel rb' k st hlt⟩

/-- Witness for C4: a concrete empty buffer of capacity `2` is filled to
length exactly `2` by the stub environment. -/
theorem claim_C4_witness :
    ((ReplayBuffer.init ℚ 2).fill_buffer envW actW rsW).1.buffer.length = 2 :=
  (claim_C4_fill_buffer_reaches_capacity_exactly envW actW rsW
    (ReplayBuffer.init ℚ 2) (by norm_num [ReplayBuffer.init])).1

/-! ### Claim C9 -/

/-- C9: when the buffer already holds at least `buffer_size` transitions,
`fill_buffer` returns at once: the whole `ReplayBuffer` object is unchanged,
and the step/policy-call counter and the reset counter both read `0` — no
transition appended, no policy call, no environment step or reset. -/
theorem claim_C9_fill_buffer_noop_when_full (env : EnvOracle σ)
    (act : ℕ → ℕ) (rs : ℕ → ℚ) (rb : ReplayBuffer σ)
    (h : rb.buffer_size ≤ rb.buffer.length) :
    rb.fill_buffer env act rs = (rb, 0, 0) := by
  show fillOuter env act rs (rb.buffer_size + 1) rb 0 0 = (rb, 0, 0)
  simp only [fillOuter]
  rw [if_neg (not_lt.mpr h)]

/-- A full buffer (capacity `1`, one stored transition). -/
def rbC9 : ReplayBuffer ℚ := ⟨[trC1], 1, 0, none⟩

/-- Witness for C9 at the concrete full buffer. -/
theorem claim_C9_witness : rbC9.fill_buffer envW actW rsW = (rbC9, 0, 0) :=
  claim_C9_fill_buffer_noop_when_full envW actW rsW rbC9 (Nat.le_refl 1)

/-! ### Claim C8 -/

/-- C8: a buffer constructed by `ReplayBuffer.__init__` has `end_factor = 0`,
and it stays exactly `0` under any number of `update()` calls
(`0 * 0.9 = 0`); consequently — as long as the `np.random.random()` draws
are non-negative, which they are — `fill_buffer` behaves exactly like the
variant with the stochastic early-truncation branch deleted: an episode ends
only by natural termination or by reaching buffer capacity. -/
theorem claim_C8_end_factor_zero_no_truncation (σ : Type) (cap n : ℕ)
    (env : EnvOracle σ) (act : ℕ → ℕ) (rs : ℕ → ℚ) (hrs : ∀ j, 0 ≤ rs j) :
    (ReplayBuffer.update^[n] (ReplayBuffer.init σ cap)).end_factor = 0
    ∧ (ReplayBuffer.update^[n] (ReplayBuffer.init σ cap)).fill_buffer env act rs
        = (ReplayBuffer.update^[n] (ReplayBuffer.init σ cap)).fill_bufferNR env act := by
  have hef : ∀ m, (ReplayBuffer.update^[m] (ReplayBuffer.init σ cap)).end_factor = 0 := by
    intro m
    induction m with
    | zero => rfl
    | succ m ihm =>
      rw [Function.iterate_succ_apply']
      have hstep :
          (ReplayBuffer.update (ReplayBuffer.update^[m] (ReplayBuffer.init σ cap))).end_factor
            = (ReplayBuffer.update^[m] (ReplayBuffer.init σ cap)).end_factor * (9/10) := rfl
      rw [hstep, ihm, zero_mul]
  exact ⟨hef n,
    fillOuter_eq_NR env act rs hrs
      ((ReplayBuffer.update^[n] (ReplayBuffer.init σ cap)).buffer_size + 1)
      (ReplayBuffer.update^[n] (ReplayBuffer.init σ cap)) 0 0 (hef n)⟩

/-- Witness for C8: two `update()` calls on a fresh capacity-2 buffer; its
collection run coincides with the truncation-free variant. -/
theorem claim_C8_witness :
    (ReplayBuffer.update^[2] (ReplayBuffer.init ℚ 2)).fill_buffer envW actW rsW
      = (ReplayBuffer.update^[2] (ReplayBuffer.init ℚ 2)).fill_bufferNR envW actW :=
  (claim_C8_end_factor_zero_no_truncation ℚ 2 2 envW actW rsW
    (fun j => by norm_num [rsW])).2

/-! ### Helper lemmas about `sample_buffer` -/

theorem sampleGo_length (rs : ℕ → ℕ) :
    ∀ (k : ℕ) (avail : List ℕ) (c : ℕ), k ≤ avail.length →
      (sampleGo rs c avail k).length = k := by
  intro k
  induction k with
  | zero =>
    intro avail c _
    rfl
  | succ k ih =>
    intro avail c hk
    have hne : ¬ avail.length = 0 := by omega
    simp only [sampleGo]
    rw [dif_neg hne]
    simp only [List.length_cons]
    rw [ih]
    rw [List.length_eraseIdx_of_lt (Nat.mod_lt _ (Nat.pos_of_ne_zero hne))]
    omega

theorem sampleGo_subset (rs : ℕ → ℕ) :
    ∀ (k : ℕ) (avail : List ℕ) (c : ℕ),
      ∀ x ∈ sampleGo rs c avail k, x ∈ avail := by
  intro k
  induction k with
  | zero =>
    intro avail c x hx
    simp [sampleGo] at hx
  | succ k ih =>
    intro avail c x hx
    by_cases hne : avail.length = 0
    · simp [sampleGo, hne] at hx
    · simp only [sampleGo] at hx
      rw [dif_neg hne] at hx
      rcases List.mem_cons.mp hx with h | h
      · rw [h]
        exact List.get_mem _ _ _
      · exact List.mem_of_mem_eraseIdx (ih _ (c + 1) x h)

theorem get_not_mem_eraseIdx {α : Type} (l : List α) (hnd : l.Nodup) (j : ℕ)
    (hj : j < l.length) : l.get ⟨j, hj⟩ ∉ l.eraseIdx j := by
  intro hmem
  rw [List.mem_eraseIdx_iff_getElem] at hmem
  obtain ⟨i, hi, hne, heq⟩ := hmem
  have heq' : l[i] = l[j] := by simpa using heq
  exact hne ((hnd.getElem_inj_iff).mp heq')

theorem sampleGo_nodup (rs : ℕ → ℕ) :
    ∀ (k : ℕ) (avail : List ℕ) (c : ℕ), avail.Nodup →
      (sampleGo rs c avail k).Nodup := by
  intro k
  induction k with
  | zero =>
    intro avail c _
    exact List.nodup_nil
  | succ k ih =>
    intro avail c hnd
    by_cases hne : avail.length = 0
    · simp [sampleGo, hne]
    · simp only [sampleGo]
      rw [dif_neg hne]
      refine List.nodup_cons.mpr ⟨?_, ih _ (c + 1) (hnd.eraseIdx _)⟩
      intro hmem
      exact get_not_mem_eraseIdx avail hnd _
        (Nat.mod_lt _ (Nat.pos_of_ne_zero hne))
        (sampleGo_subset rs k _ (c + 1) _ hmem)

theorem randomSample_spec (rs : ℕ → ℕ) (c n k : ℕ) (h : k ≤ n) :
    randomSample rs c n k = some (sampleGo rs c (List.range n) k)
    ∧ (sampleGo rs c (List.range n) k).length = k
    ∧ (sampleGo rs c (List.range n) k).Nodup
    ∧ ∀ x ∈ sampleGo rs c (List.range n) k, x < n :=
  ⟨if_pos h,
   sampleGo_length rs k (List.range n) c (by simpa using h),
   sampleGo_nodup rs k (List.range n) c (List.nodup_range n),
   fun x hx => List.mem_range.mp (sampleGo_subset rs k (List.range n) c x hx)⟩

/-- The number of multiples of `b` in `[0, N)` is `⌈N/b⌉`, the length of
Python's `range(0, N, b)`. -/
theorem card_multiples_range (N b : ℕ) (hb : 0 < b) :
    ((Finset.range N).filter (fun m => b ∣ m)).card = (N + b - 1) / b := by
  have himg : (Finset.range ((N + b - 1) / b)).image (fun q => q * b)
      = (Finset.range N).filter (fun m => b ∣ m) := by
    ext m
    simp only [Finset.mem_image, Finset.mem_filter, Finset.mem_range]
    constructor
    · rintro ⟨q, hq, rfl⟩
      refine ⟨?_, ⟨q, by ring⟩⟩
      have h2 : (q + 1) * b ≤ N + b - 1 := (Nat.le_div_iff_mul_le hb).mp hq
      have h3 : (q + 1) * b = q * b + b := by ring
      omega
    · rintro ⟨hm, q, rfl⟩
      refine ⟨q, ?_, by ring⟩
      refine (Nat.le_div_iff_mul_le hb).mpr ?_
      show (q + 1) * b ≤ N + b - 1
      have h3 : (q + 1) * b = b * q + b := by ring
      omega
  rw [← himg,
    Finset.card_image_of_injective _ (fun a a' hh => Nat.eq_of_mul_eq_mul_right hb hh),
    Finset.card_range]

theorem sample_buffer_length (rb : ReplayBuffer σ) (batch_size : ℕ)
    (rs : ℕ → ℕ) :
    (rb.sample_buffer batch_size rs).length
      = (rb.buffer_size + batch_size - 1) / batch_size := by
  simp [ReplayBuffer.sample_buffer, pyRange]

/-! ### Claim C5 -/

/-- C5: whenever the buffer holds at least `batch_size` transitions (and
`batch_size` is a positive number at most `buffer_size`), every batch yielded
by `sample_buffer(batch_size)` succeeds, has exactly `batch_size` chosen
buffer positions with no duplicate position inside the batch (drawn without
replacement from the full buffer), and the number of yielded batches equals
the number of multiples of `batch_size` in `[0, buffer_size)`. -/
theorem claim_C5_sample_buffer_shape (rb : ReplayBuffer σ) (batch_size : ℕ)
    (rs : ℕ → ℕ) (hpos : 0 < batch_size)
    (hlen : batch_size ≤ rb.buffer.length) (hbs : batch_size ≤ rb.buffer_size) :
    (rb.sample_buffer batch_size rs).length
        = ((Finset.range rb.buffer_size).filter (fun m => batch_size ∣ m)).card
    ∧ ∀ b ∈ rb.sample_buffer batch_size rs, ∃ l,
        b = some l ∧ l.length = batch_size ∧ l.Nodup
        ∧ ∀ i ∈ l, i < rb.buffer.length := by
  constructor
  · rw [sample_buffer_length, card_multiples_range _ _ hpos]
  · intro b hb
    simp only [ReplayBuffer.sample_buffer, List.mem_map] at hb
    obtain ⟨bn, -, rfl⟩ := hb
    obtain ⟨heq, hl, hnd, hbound⟩ :=
      randomSample_spec rs bn rb.buffer.length batch_size hlen
    exact ⟨_, heq, hl, hnd, hbound⟩

/-- A buffer holding two transitions, capacity `2`. -/
def rbC5 : ReplayBuffer ℚ := ⟨[trC1, trC1], 2, 0, none⟩

/-- A stub `random.sample` index stream. -/
def rsNW : ℕ → ℕ := fun _ => 0

/-- Witness for C5: with `batch_size = 1` on a 2-element buffer of capacity 2,
the batch count matches the multiples of 1 in `[0, 2)`. -/
theorem claim_C5_witness :
    (rbC5.sample_buffer 1 rsNW).length
      = ((Finset.range rbC5.buffer_size).filter (fun m => 1 ∣ m)).card :=
  (claim_C5_sample_buffer_shape rbC5 1 rsNW (by norm_num)
    (by simp [rbC5]) (by norm_num [rbC5])).1

/-! ### Claim C10 -/

/-- C10: if the buffer holds fewer than `batch_size` transitions (as it does
freshly constructed), the very first batch `sample_buffer(batch_size)` yields
is the `ValueError` of `random.sample` (sampling more elements without
replacement than the population holds) — in fact every yielded batch is —
and `sample_buffer` never yields a successful batch with other than exactly
`batch_size` elements (for any buffer at all). -/
theorem claim_C10_sample_buffer_error_when_underfull (rb : ReplayBuffer σ)
    (batch_size : ℕ) (rs : ℕ → ℕ) (hsmall : rb.buffer.length < batch_size)
    (hcap : 0 < rb.buffer_size) :
    (rb.sample_buffer batch_size rs).head? = some none
    ∧ (∀ b ∈ rb.sample_buffer batch_size rs, b = none)
    ∧ (∀ (rb' : ReplayBuffer σ) (bs' : ℕ) (rs' : ℕ → ℕ),
        ∀ b ∈ rb'.sample_buffer bs' rs', ∀ l, b = some l → l.length = bs') := by
  have hposb : 0 < batch_size := by omega
  have hlenpy : 0 < (pyRange 0 rb.buffer_size batch_size).length := by
    simp only [pyRange, List.length_range']
    exact (Nat.le_div_iff_mul_le hposb).mpr (by omega)
  obtain ⟨a, t, hat⟩ := List.exists_cons_of_ne_nil (List.ne_nil_of_length_pos hlenpy)
  refine ⟨?_, ?_, ?_⟩
  · show ((pyRange 0 rb.buffer_size batch_size).map _).head? = some none
    rw [hat]
    simp only [List.map_cons, List.head?_cons]
    rw [randomSample, if_neg (not_le.mpr hsmall)]
  · intro b hb
    simp only [ReplayBuffer.sample_buffer, List.mem_map] at hb
    obtain ⟨bn, -, rfl⟩ := hb
    rw [randomSample, if_neg (not_le.mpr hsmall)]
  · intro rb' bs' rs' b hb l hl
    simp only [ReplayBuffer.sample_buffer, List.mem_map] at hb
    obtain ⟨bn, -, rfl⟩ := hb
    rw [randomSample] at hl
    by_cases hk : bs' ≤ rb'.buffer.length
    · rw [if_pos hk] at hl
      have hX : sampleGo rs' bn (List.range rb'.buffer.length) bs' = l :=
        Option.some_inj.mp hl
      rw [← hX]
      exact sampleGo_length rs' bs' _ bn (by simpa using hk)
    · rw [if_neg hk] at hl
      simp at hl

/-- Witness for C10: the freshly constructed (empty) capacity-2 buffer makes
the first batch of `sample_buffer(1)` fail. -/
theorem claim_C10_witness :
    ((ReplayBuffer.init ℚ 2).sample_buffer 1 rsNW).head? = some none :=
  (claim_C10_sample_buffer_error_when_underfull (ReplayBuffer.init ℚ 2) 1 rsNW
    (by simp [ReplayBuffer.init]) (by norm_num [ReplayBuffer.init])).1

/-! ### Helper lemmas about `Agent.train_truth` -/

theorem getD_append_cons {α : Type} (pre t : List α) (x d : α) :
    (pre ++ x :: t).getD pre.length d = x := by
  induction pre with
  | nil => rfl
  | cons p ps ih => simpa using ih

theorem set_append_cons {α : Type} (pre t : List α) (x v : α) :
    (pre ++ x :: t).set pre.length v = pre ++ v :: t := by
  induction pre with
  | nil => rfl
  | cons p ps ih => simpa using ih

theorem foldl_target (g : ℚ) (batch : List (Transition σ)) :
    ∀ (pre rows : List (List ℚ)), rows.length = batch.length →
      List.foldl (fun m p =>
          m.set p.1 ((m.getD p.1 []).set p.2.action
            (if p.2.done then p.2.reward
             else p.2.reward + g * (m.getD p.1 []).getD p.2.action 0)))
        (pre ++ rows) (List.enumFrom pre.length batch)
      = pre ++ List.zipWith (fun row tr => rowTarget g row tr) rows batch := by
  induction batch with
  | nil =>
    intro pre rows hlen
    rw [List.length_eq_zero.mp hlen]
    simp
  | cons tr bt ih =>
    intro pre rows hlen
    cases rows with
    | nil => simp at hlen
    | cons r rt =>
      simp only [List.enumFrom_cons, List.foldl_cons, List.zipWith_cons_cons]
      rw [getD_append_cons, set_append_cons]
      have hlen' : rt.length = bt.length := by simpa using hlen
      have hassoc : pre ++ (r.set tr.action
          (if tr.done then tr.reward
           else tr.reward + g * r.getD tr.action 0)) :: rt
          = (pre ++ [rowTarget g r tr]) ++ rt := by
        simp [rowTarget]
      have hpre1 : pre.length + 1 = (pre ++ [rowTarget g r tr]).length := by simp
      rw [hassoc, hpre1, ih (pre ++ [rowTarget g r tr]) rt hlen']
      simp

theorem zipWith_map_self_left {α β γ : Type} (f : β → α → γ) (g : α → β) :
    ∀ l : List α, List.zipWith f (l.map g) l = l.map fun x => f (g x) x := by
  intro l
  induction l with
  | nil => rfl
  | cons x xs ih => simp [ih]

theorem train_truth_eq_map (a : Agent) (tf : List (List ℚ) → σ → List ℚ)
    (batch : List (Transition σ)) :
    a.train_truth tf batch
      = batch.map (fun tr => rowTarget a.gamma (tf a.t_net tr.next_state) tr) := by
  have h := foldl_target a.gamma batch []
    (batch.map (fun tr => tf a.t_net tr.next_state)) (by simp)
  simp only [List.nil_append, List.length_nil] at h
  simp only [Agent.train_truth]
  rw [List.enum_eq_enumFrom, h, zipWith_map_self_left]

/-! ### Claim C2 -/

/-- C2: the target tensor `Agent.train` fits against equals the target net's
predictions on the batch's `next_state`s, overwritten only in the
taken-action column of each row: that entry is exactly `reward` when `done`,
and `reward + gamma * target_Q(next_state)[action]` — the target net's value
at the very same action index, not a max over next-state actions — when not
`done`.  Every other column keeps the target net's prediction. -/
theorem claim_C2_train_targets (tForward : List (List ℚ) → σ → List ℚ)
    (a : Agent) (batch : List (Transition σ)) (i j : ℕ) (hi : i < batch.length)
    (ha : (batch.get ⟨i, hi⟩).action
        < (tForward a.t_net (batch.get ⟨i, hi⟩).next_state).length) :
    ((a.train_truth tForward batch).getD i []).getD j 0
      = if j = (batch.get ⟨i, hi⟩).action then
          (if (batch.get ⟨i, hi⟩).done then (batch.get ⟨i, hi⟩).reward
           else (batch.get ⟨i, hi⟩).reward + a.gamma *
             (tForward a.t_net (batch.get ⟨i, hi⟩).next_state).getD j 0)
        else (tForward a.t_net (batch.get ⟨i, hi⟩).next_state).getD j 0 := by
  rw [train_truth_eq_map]
  have hmap : (batch.map (fun tr =>
      rowTarget a.gamma (tForward a.t_net tr.next_state) tr)).getD i []
      = rowTarget a.gamma (tForward a.t_net (batch.get ⟨i, hi⟩).next_state)
          (batch.get ⟨i, hi⟩) := by
    rw [List.getD_eq_getElem _ _ (by simpa using hi), List.getElem_map]
    simp
  rw [hmap, rowTarget]
  by_cases hj : j = (batch.get ⟨i, hi⟩).action
  · subst hj
    rw [if_pos rfl, List.getD_eq_getElem _ _ (by simpa using ha),
      List.getElem_set_self]
  · rw [if_neg hj, List.getD_eq_getElem?_getD, List.getD_eq_getElem?_getD,
      List.getElem?_set_ne (Ne.symm hj)]
    simp

/-- The target-net forward map used in the C2 witness. -/
def tfW : List (List ℚ) → ℚ → List ℚ := fun _ s => [s, s + 1]

/-- One-transition batch: action `1`, reward `5`, `done = true`. -/
def batchC2 : List (Transition ℚ) := [⟨0, 1, 5, 2, true⟩]

/-- Witness for C2: on a `done` transition the taken-action entry of the
target tensor is the literal reward `5`. -/
theorem claim_C2_witness :
    (((Agent.mk [] [] 1 (9/10)).train_truth tfW batchC2).getD 0 []).getD 1 0
      = 5 := by
  have h := claim_C2_train_targets tfW (Agent.mk [] [] 1 (9/10)) batchC2 0 1
    (by norm_num [batchC2]) (by norm_num [batchC2, tfW])
  simpa [batchC2] using h
